import Mathlib

/-! Verification development for the `fi` binary-analysis tool.

The definitions below are a shallow embedding of the program's source:
pure Rust functions become Lean functions over `Nat`/`Int`/`List`, with
machine-integer overflow modelled explicitly (`% 2^64`) where it matters.
Behaviour of external collaborators that the source relies on (the Rust
standard library's `slice::binary_search_by`, stable `sort_by_key`,
`DefaultHasher`, and the `object` crate's accessors) is modelled from
their documented semantics, as noted at each definition.
-/

namespace Fi

/-! ### Rust `slice::binary_search_by`

Model of `core`'s branchless binary search (the implementation shipped
with every toolchain able to build this crate): the loop narrows a
window `[base, base + size)` without early exit, moving `base` to `mid`
whenever the probed element is not `Greater`; afterwards the element at
`base` decides between `Ok(base)` and `Err(base + (cmp == Less))`.
The first argument is fuel (≥ the initial window size suffices). -/

def bsLoop (ks : List Nat) (t : Nat) : Nat → Nat → Nat → Nat
  | 0, base, _ => base
  | fuel+1, base, size =>
    if 1 < size then
      let half := size / 2
      let mid := base + half
      if t < ks.getD mid 0 then bsLoop ks t fuel base (size - half)
      else bsLoop ks t fuel mid (size - half)
    else base

/-- The `slice::binary_search_by`, comparing each key with target `t`. -/
def binarySearch (ks : List Nat) (t : Nat) : Except Nat Nat :=
  if ks.length = 0 then .error 0
  else
    let base := bsLoop ks t ks.length 0 ks.length
    let k := ks.getD base 0
    if k = t then .ok base
    else if k < t then .error (base + 1)
    else .error base

/-! ### Object data model

A parsed object view, as exposed by the `object` crate to this program:
format, architecture, sections, the symbol table (indexed by symbol
index) and the enumerated dynamic relocations. -/

inductive Architecture
  | x86_64 | aarch64 | riscv64 | wasm32 | wasm64 | i386 | arm | otherArch
  deriving DecidableEq

inductive BinaryFormat
  | elf | macho | wasmFmt | pe | coff
  deriving DecidableEq

/-- The `object::SymbolSection` (the cases the program distinguishes). -/
inductive SymSection
  | undefined | absolute | common | inSection (idx : Nat) | unknownSection
  deriving DecidableEq

structure ObjSection where
  name : String
  address : Nat
  size : Nat
  sectAlign : Nat
  /-- uncompressed section contents, as returned by `uncompressed_data` -/
  data : List Nat
  deriving DecidableEq

instance : Inhabited ObjSection := ⟨⟨"", 0, 0, 1, []⟩⟩

structure Sym where
  name : String
  address : Nat
  size : Nat
  sect : SymSection
  deriving DecidableEq

instance : Inhabited Sym := ⟨⟨"", 0, 0, .undefined⟩⟩

inductive RelocTarget
  | symbol (idx : Nat) | absolute | otherTarget
  deriving DecidableEq

structure Reloc where
  target : RelocTarget
  addend : Int
  deriving DecidableEq

instance : Inhabited Reloc := ⟨⟨.otherTarget, 0⟩⟩

structure Obj where
  format : BinaryFormat
  arch : Architecture
  sections : List ObjSection
  symbols : List Sym
  dynRelocs : List (Nat × Reloc)

/-- Address of the symbol-table entry with the given index. -/
def symAddr (o : Obj) (i : Nat) : Nat := (o.symbols.getD i default).address

/-- The `Cache::symlist` (src/explorer.rs): every symbol-table index, sorted by
symbol address.  Rust's `sort_by_key` is a stable sort, modelled here by
insertion sort (also stable, hence extensionally the same list). -/
def symlist (o : Obj) : List Nat :=
  (List.range o.symbols.length).insertionSort (fun i j => symAddr o i ≤ symAddr o j)

/-- The address-sorted key list backing the `symlist` binary search. -/
def symlistKeys (o : Obj) : List Nat := (symlist o).map (symAddr o)

/-- The `Cache::addr2sym` = `object::File::symbol_map` (external crate, modelled
from its documented behaviour): one `(address, name)` entry per defined
symbol (one belonging to some section), sorted by address. -/
def addr2sym (o : Obj) : List (Nat × String) :=
  (o.symbols.filterMap (fun s =>
    match s.sect with
    | .inSection _ => some (s.address, s.name)
    | _ => none)).insertionSort (fun a b => a.1 ≤ b.1)

/-- The `Cache::dyn_rela` (src/explorer.rs): dynamic relocations sorted by
applied address (stable `sort_by_key`, modelled by insertion sort). -/
def dyn_rela (o : Obj) : List (Nat × Reloc) :=
  o.dynRelocs.insertionSort (fun a b => a.1 ≤ b.1)

/-- The `object::File::section_by_name` (external crate, modelled from its
documented behaviour): plain name lookup, except that for Mach-O a
leading `"."` is first translated to the `"__"` prefix used by Mach-O
section names (so `".got"` finds `"__got"`). -/
def section_by_name (o : Obj) (name : String) : Option ObjSection :=
  if o.format = .macho ∧ name.startsWith "." then
    match o.sections.find? (fun s => s.name = "__" ++ name.drop 1) with
    | some s => some s
    | none => o.sections.find? (fun s => s.name = name)
  else o.sections.find? (fun s => s.name = name)

/-! ### `Explorer::symbol_size` (src/explorer.rs, lines 80–111) -/

/-- The `Explorer::symbol_size`.  `u64` arithmetic is modelled on `Nat`; the
two subtractions cannot underflow on inputs where the source does not
panic (the next entry of the address-sorted list has a larger or equal
address, and a symbol lies below its section's end). -/
def symbol_size (o : Obj) (idx : Nat) : Except String Nat :=
  match o.symbols.get? idx with
  | none => .error "invalid symbol index"
  | some sym =>
    if o.format ≠ .macho then .ok sym.size
    else
      match binarySearch (symlistKeys o) sym.address with
      | .error _ => .error "not found symbol address"
      | .ok i =>
        match (symlist o).get? (i + 1) with
        | some j => .ok ((o.symbols.getD j default).address - sym.address)
        | none =>
          match sym.sect with
          | .inSection sidx =>
            match o.sections.get? sidx with
            | some sec => .ok (sec.address + sec.size - sym.address)
            | none => .error "invalid section index"
          | _ => .ok sym.size

/-- The smallest key strictly greater than `a`: head of the
strictly-greater suffix of the (sorted) key list. -/
def nextGreater (ks : List Nat) (a : Nat) : Option Nat :=
  (ks.filter (fun k => a < k)).head?

/-- The `symbol_size` as the spec describes it: for non-Mach-O the recorded
size; for Mach-O, the distance to the next *strictly greater* address in
the address-sorted symbol list (ties skipped); if none exists, the
extent up to the symbol's section end, or the recorded size when no
section is known; an error exactly when the symbol's address is absent
from the sorted list. -/
def spec_symbol_size (o : Obj) (idx : Nat) : Except String Nat :=
  match o.symbols.get? idx with
  | none => .error "invalid symbol index"
  | some sym =>
    if o.format ≠ .macho then .ok sym.size
    else if sym.address ∈ symlistKeys o then
      match nextGreater (symlistKeys o) sym.address with
      | some a' => .ok (a' - sym.address)
      | none =>
        match sym.sect with
        | .inSection sidx =>
          match o.sections.get? sidx with
          | some sec => .ok (sec.address + sec.size - sym.address)
          | none => .error "invalid section index"
        | _ => .ok sym.size
    else .error "not found symbol address"

/-! ### `DefaultHasher` (src/util.rs `hashname`)

`std::collections::hash_map::DefaultHasher` is SipHash-1-3 with both
keys zero; its digest depends only on the fed byte stream.  64-bit words
are `Nat` reduced `% 2^64`. -/

def W64 : Nat := 2 ^ 64

def wadd (a b : Nat) : Nat := (a + b) % W64

/-- rotate a 64-bit word left by `n` (exact for `x < 2^64`, `n ≤ 64`) -/
def rotl64 (x n : Nat) : Nat := (x % 2 ^ (64 - n)) * 2 ^ n + x / 2 ^ (64 - n)

structure SipState where
  v0 : Nat
  v1 : Nat
  v2 : Nat
  v3 : Nat

def sipRound (s : SipState) : SipState :=
  let v0 := wadd s.v0 s.v1
  let v1 := rotl64 s.v1 13
  let v1 := Nat.xor v1 v0
  let v0 := rotl64 v0 32
  let v2 := wadd s.v2 s.v3
  let v3 := rotl64 s.v3 16
  let v3 := Nat.xor v3 v2
  let v0 := wadd v0 v3
  let v3 := rotl64 v3 21
  let v3 := Nat.xor v3 v0
  let v2 := wadd v2 v1
  let v1 := rotl64 v1 17
  let v1 := Nat.xor v1 v2
  let v2 := rotl64 v2 32
  SipState.mk v0 v1 v2 v3

def sipAbsorb (s : SipState) (m : Nat) : SipState :=
  let s1 : SipState := { s with v3 := Nat.xor s.v3 m }
  let s2 := sipRound s1
  { s2 with v0 := Nat.xor s2.v0 m }

/-- little-endian value of a byte list -/
def leVal (bs : List Nat) : Nat := bs.foldr (fun b acc => acc * 256 + b) 0

/-- absorb full 8-byte words, returning the state and the short tail -/
def sipBlocks : SipState → List Nat → SipState × List Nat
  | s, b0 :: b1 :: b2 :: b3 :: b4 :: b5 :: b6 :: b7 :: rest =>
    sipBlocks (sipAbsorb s (leVal [b0, b1, b2, b3, b4, b5, b6, b7])) rest
  | s, tail => (s, tail)

/-- SipHash-1-3 with keys `(0, 0)` over a byte stream, i.e. the digest
`DefaultHasher::finish` produces after the stream has been written. -/
def siphash13 (bytes : List Nat) : Nat :=
  let s : SipState :=
    SipState.mk 0x736f6d6570736575 0x646f72616e646f6d
      0x6c7967656e657261 0x7465646279746573
  let st := sipBlocks s bytes
  let b := (bytes.length % 256) * 2 ^ 56 + leVal st.2
  let s2 := sipAbsorb st.1 b
  let s3 : SipState := { s2 with v2 := Nat.xor s2.v2 0xff }
  let s4 := sipRound (sipRound (sipRound s3))
  Nat.xor (Nat.xor s4.v0 s4.v1) (Nat.xor s4.v2 s4.v3)

/-- The `n`-byte little-endian encoding (`u32`/`u64::to_le_bytes`) -/
def leBytes : Nat → Nat → List Nat
  | 0, _ => []
  | n+1, x => x % 256 :: leBytes n (x / 256)

def hexDigitChars : List Char := "0123456789abcdef".data

def hexChar (n : Nat) : Char := hexDigitChars.getD n '0'

/-- The `data_encoding::HEXLOWER.encode`: two lowercase hex chars per byte -/
def hexLower (bytes : List Nat) : List Char :=
  bytes.foldr (fun b acc => hexChar (b / 16) :: hexChar (b % 16) :: acc) []

/-- The byte stream `hashname` (src/util.rs lines 18–27) feeds to
`DefaultHasher` on 64-bit Linux, for a relative path with no path
separators: the process id (`u32`, 4 LE bytes), the current
`SystemTime` (`tv_sec` 8 LE bytes, `tv_nsec` 4 LE bytes), the path's
`OsStr` length (`usize`, 8 LE bytes), then the `Path` hash contribution
(the path bytes followed by the hashed byte count as 8 LE bytes). -/
def hashnameStream (pid sec nsec : Nat) (path : List Nat) : List Nat :=
  leBytes 4 pid ++ leBytes 8 sec ++ leBytes 4 nsec ++
    leBytes 8 path.length ++ path ++ leBytes 8 path.length

/-- The `hashname` (src/util.rs): the socket file name `listen` uses —
lowercase-hex encoding of the 8 little-endian digest bytes. -/
def hashname (pid sec nsec : Nat) (path : List Nat) : List Char :=
  hexLower (leBytes 8 (siphash13 (hashnameStream pid sec nsec path)))

/-! ### `u64ptr` (src/util.rs lines 53–69) -/

/-- hex digit value, either case (`HEXLOWER_PERMISSIVE`) -/
def hexVal (c : Char) : Option Nat :=
  if '0' ≤ c ∧ c ≤ '9' then some (c.toNat - 48)
  else if 'a' ≤ c ∧ c ≤ 'f' then some (c.toNat - 87)
  else if 'A' ≤ c ∧ c ≤ 'F' then some (c.toNat - 55)
  else none

/-- The `HEXLOWER_PERMISSIVE.decode_mut`: hex-digit pairs to bytes -/
def decodeHexPairs : List Char → Option (List Nat)
  | [] => some []
  | c1 :: c2 :: rest => do
    let h ← hexVal c1
    let l ← hexVal c2
    let bs ← decodeHexPairs rest
    pure ((h * 16 + l) :: bs)
  | _ => none

/-- The `u64::from_be_bytes` -/
def fromBeBytes (bs : List Nat) : Nat := bs.foldl (fun acc b => acc * 256 + b) 0

/-- value of a decimal digit string -/
def digitsVal (cs : List Char) : Nat :=
  cs.foldl (fun acc c => acc * 10 + (c.toNat - 48)) 0

/-- drop one leading `+` sign, as `u64::from_str` does -/
def stripPlus : List Char → List Char
  | [] => []
  | c :: rest => if c = '+' then rest else c :: rest

/-- Rust `u64::from_str`: optional leading `+`, decimal digits; errors on
empty input, a non-digit, or overflow past `2^64 - 1`. -/
def parseU64 (cs0 : List Char) : Except String Nat :=
  let cs := stripPlus cs0
  if cs.isEmpty then .error "number parse failed"
  else if cs.all (fun c => c.isDigit) then
    let v := digitsVal cs
    if v < 2 ^ 64 then .ok v else .error "number parse failed"
  else .error "number parse failed"

/-- The `u64ptr` (src/util.rs): `0x`-prefixed input is hex-decoded through
`HEXLOWER_PERMISSIVE` into the tail of an 8-byte buffer read big-endian
(`decode_len` rejects an odd digit count; more than 16 digits exceeds
the buffer); anything else is parsed as decimal. -/
def u64ptrChars : List Char → Except String Nat
  | '0' :: 'x' :: v =>
    if v.length % 2 ≠ 0 then .error "hex decode failed"
    else if 8 < v.length / 2 then .error "hex value is greater than 64bit"
    else
      match decodeHexPairs v with
      | none => .error "hex decode failed"
      | some bytes =>
        .ok (fromBeBytes (List.replicate (8 - v.length / 2) 0 ++ bytes))
  | cs => parseU64 cs

def u64ptr (s : String) : Except String Nat := u64ptrChars s.data

/-- big-endian base-256 digits (`n` bytes) of `x` (for `x < 256^n`) -/
def beBytesOf : Nat → Nat → List Nat
  | 0, _ => []
  | n+1, x => x / 256 ^ n :: beBytesOf n (x % 256 ^ n)

/-- big-endian hex digits (`n` nibbles) of `x` (for `x < 16^n`) -/
def beNibblesOf : Nat → Nat → List Nat
  | 0, _ => []
  | n+1, x => x / 16 ^ n :: beNibblesOf n (x % 16 ^ n)

/-- the 16-digit zero-padded lowercase hex rendering of a `u64` -/
def hexPad16 (x : Nat) : List Char := (beNibblesOf 16 x).map hexChar

/-! ### Session-socket discovery (src/call.rs lines 18–37) -/

structure DirEntry where
  name : String
  isSocket : Bool
  deriving DecidableEq

/-- The discovery loop of `call` when `FI_SESSION` is unset: walk the
directory entries in enumeration order, remembering every socket entry;
the last one seen wins (`found` is overwritten, never kept), and the
result is `none` exactly when no entry is a socket. -/
def call_discover (entries : List DirEntry) : Option String :=
  entries.foldl (fun found e => if e.isSocket then some e.name else found) none

def isPrefixChars : List Char → List Char → Bool
  | [], _ => true
  | _ :: _, [] => false
  | a :: as, b :: bs => if a = b then isPrefixChars as bs else false

/-- lexicographic comparison of strings by character code -/
def lexLeChars : List Char → List Char → Bool
  | [], _ => true
  | _ :: _, [] => false
  | a :: as, b :: bs =>
    if a.toNat < b.toNat then true
    else if b.toNat < a.toNat then false
    else lexLeChars as bs

/-- Discovery as the spec words it: sort the socket names, prefer the
first whose name begins with `H(cwd)`, otherwise take the first socket;
fail only when no socket exists. -/
def spec_discover (cwdHash : String) (entries : List DirEntry) : Option String :=
  let socks := (entries.filter (fun e => e.isSocket)).map (fun e => e.name)
  let sorted := socks.insertionSort (fun a b => lexLeChars a.data b.data = true)
  match sorted.filter (fun n => isPrefixChars cwdHash.data n.data) with
  | n :: _ => some n
  | [] => sorted.head?

instance instTotalSymAddr (o : Obj) :
    IsTotal Nat (fun i j => symAddr o i ≤ symAddr o j) :=
  ⟨fun _ _ => Nat.le_total _ _⟩

instance instTransSymAddr (o : Obj) :
    IsTrans Nat (fun i j => symAddr o i ≤ symAddr o j) :=
  ⟨fun _ _ _ hab hbc => Nat.le_trans hab hbc⟩

instance instTotalFstNS :
    IsTotal (Nat × String) (fun a b => a.1 ≤ b.1) :=
  ⟨fun _ _ => Nat.le_total _ _⟩

instance instTransFstNS :
    IsTrans (Nat × String) (fun a b => a.1 ≤ b.1) :=
  ⟨fun _ _ _ hab hbc => Nat.le_trans hab hbc⟩

instance instTotalFstNR :
    IsTotal (Nat × Reloc) (fun a b => a.1 ≤ b.1) :=
  ⟨fun _ _ => Nat.le_total _ _⟩

instance instTransFstNR :
    IsTrans (Nat × Reloc) (fun a b => a.1 ≤ b.1) :=
  ⟨fun _ _ _ hab hbc => Nat.le_trans hab hbc⟩

instance : Inhabited (Nat × String) := ⟨(0, "")⟩

instance : Inhabited (Nat × Reloc) := ⟨(0, default)⟩

/-! ### `query_symbol_by_addr` (src/show.rs lines 520–572) -/

/-- the relocation-target dispatch at the end of `query_symbol_by_addr`
(src/show.rs lines 557–570) -/
def relaDispatch (o : Obj) (e : Nat × Reloc) : Option (String × Nat) :=
  match e.2.target with
  | .symbol sidx =>
    match o.symbols.get? sidx with
    | some s => some (s.name, s.address)
    | none => none
  | .absolute =>
    if e.2.addend < 0 then none
    else
      match binarySearch ((addr2sym o).map Prod.fst) e.2.addend.toNat with
      | .ok j => some (((addr2sym o).getD j default).2, ((addr2sym o).getD j default).1)
      | .error _ => none
  | .otherTarget => none

/-- The `query_symbol_by_addr`: direct binary search of the address-sorted
symbol map; on a miss, the `.got` section check, then a binary search of
the sorted dynamic relocations accepting an exact hit or the next-higher
entry, guarded to `[addr, addr + 8)`, then target dispatch. -/
def query_symbol_by_addr (o : Obj) (addr : Nat) : Option (String × Nat) :=
  let map := addr2sym o
  match binarySearch (map.map Prod.fst) addr with
  | .ok i => some ((map.getD i default).2, (map.getD i default).1)
  | .error _ =>
    match section_by_name o ".got" with
    | none => none
    | some sec =>
      if ¬ (sec.address ≤ addr ∧ addr < sec.address + sec.size) then none
      else
        let rl := dyn_rela o
        let idx? : Option Nat :=
          match binarySearch (rl.map Prod.fst) addr with
          | .ok i => some i
          | .error e => if e < rl.length then some e else none
        match idx? with
        | none => none
        | some i =>
          let e := rl.getD i default
          if ¬ (addr ≤ e.1 ∧ e.1 < addr + 8) then none
          else relaDispatch o e

/-! ### `by_symbol` symbol selection (src/show.rs lines 47–85) -/

/-- The part of `by_symbol` that picks the symbol-table index for the
queried address (everything before the data slicing): an exact hit in
the address-sorted map, or the nearest lower map entry whose membership
is tested against the symbol's *recorded* `size()` field. -/
def by_symbol_lookup (o : Obj) (addr : Nat) : Except String Nat :=
  let sl := symlist o
  let map := addr2sym o
  match binarySearch (map.map Prod.fst) addr with
  | .ok i =>
    match binarySearch (symlistKeys o) (map.getD i default).1 with
    | .ok k => .ok (sl.getD k 0)
    | .error _ => .error "not found symbol"
  | .error e =>
    let i := e - 1
    match map.get? i with
    | none => .error "no available symbols found"
    | some me =>
      match binarySearch (symlistKeys o) me.1 with
      | .error _ => .error "not found symbol"
      | .ok k =>
        let symIdx := sl.getD k 0
        let sym := o.symbols.getD symIdx default
        if sym.address ≤ addr ∧ addr < sym.address + sym.size then .ok symIdx
        else .error "not found symbol by address"

def exceptIsOk {ε α : Type _} : Except ε α → Bool
  | .ok _ => true
  | .error _ => false

instance {ε α : Type _} [DecidableEq ε] [DecidableEq α] :
    DecidableEq (Except ε α) := fun a b =>
  match a, b with
  | .ok x, .ok y =>
    if h : x = y then .isTrue (by rw [h])
    else .isFalse (fun hc => by cases hc; exact h rfl)
  | .error x, .error y =>
    if h : x = y then .isTrue (by rw [h])
    else .isFalse (fun hc => by cases hc; exact h rfl)
  | .ok _, .error _ => .isFalse (fun hc => by cases hc)
  | .error _, .ok _ => .isFalse (fun hc => by cases hc)

/-! ### `by_section` address and length (src/show.rs lines 126–155) -/

/-- runtime behaviour of `pointer::align_offset` for a power-of-two
alignment: the distance from `addr` up to the next aligned address,
always in `[0, align)`. -/
def align_offset (addr a : Nat) : Nat := (a - addr % a) % a

/-- The displayed start address computed by `by_section` (src/show.rs
lines 145–150): `align_offset`'s result — an *offset* — is bound to
`new_addr` and compared as if it were an address. -/
def by_section_addr (addr align : Nat) : Nat :=
  let new_addr := align_offset addr align
  if addr = new_addr ∨ new_addr < align then addr else new_addr - align

/-- the byte count displayed by `by_section` (src/show.rs lines 152–154):
`min(requested or 256, data length − offset)` -/
def by_section_len (requested : Option Nat) (dataLen offset : Nat) : Nat :=
  min (requested.getD 256) (dataLen - offset)

/-- The `show_data` (src/show.rs line 452) renders 16 bytes per hex+ASCII line -/
def show_data_width : Nat := 16

/-! ### Disassembler façade (src/disasm.rs) -/

inductive DisasmBackend
  | x86_64 | aarch64 | wasm
  deriving DecidableEq

/-- The `Disassembler::new` (src/disasm.rs lines 38–62).  The capstone
builder calls, which fail only on allocation failure, are modelled as
succeeding. -/
def Disassembler.new (arch : Architecture) : Except String DisasmBackend :=
  match arch with
  | .x86_64 => .ok .x86_64
  | .aarch64 => .ok .aarch64
  | .wasm32 => .ok .wasm
  | .wasm64 => .ok .wasm
  | _ => .error "unsupported arch"

/-- capstone instruction-group identifiers tested by `operand2addr` -/
def CS_GRP_JUMP : Nat := 1

def CS_GRP_CALL : Nat := 2

/-- the capstone x86 operand shapes `operand2addr` distinguishes;
`mem true disp` is a memory operand whose base register is RIP -/
inductive X86Op
  | imm (v : Int)
  | mem (ripBase : Bool) (disp : Int)
  | otherOp

inductive Arm64Op
  | imm (v : Int)
  | otherOp

inductive ArchOps
  | x86 (ops : List X86Op)
  | arm64 (ops : List Arm64Op)
  | otherOps

/-- result of `disasm.insn_detail`: the instruction's group ids and its
architecture-specific operand list -/
structure InsnDetail where
  groups : List Nat
  ops : ArchOps

structure Insn where
  address : Nat
  /-- The `None` models `insn_detail` returning `Err` -/
  detail : Option InsnDetail

/-- The `disasm::Inst` -/
inductive Inst
  | x86_64 (i : Insn)
  | aarch64 (i : Insn)
  | wasm (offset : Nat)

/-- The `i64::try_into::<u64>()` -/
def i64_to_u64 (v : Int) : Option Nat :=
  if 0 ≤ v then some v.toNat else none

/-- The `u64::checked_add_signed` -/
def checked_add_signed (a : Nat) (d : Int) : Option Nat :=
  let r := (a : Int) + d
  if 0 ≤ r ∧ r < (2 : Int) ^ 64 then some r.toNat else none

/-- The `Disassembler::operand2addr` (src/disasm.rs lines 78–153). -/
def operand2addr (d : DisasmBackend) (inst : Inst) : Except String (Option Nat) :=
  match d, inst with
  | .x86_64, .x86_64 i =>
    match i.detail with
    | none => .ok none
    | some det =>
      if ¬ (CS_GRP_CALL ∈ det.groups ∨ CS_GRP_JUMP ∈ det.groups) then .ok none
      else
        match det.ops with
        | .x86 ops =>
          match ops.head? with
          | none => .ok none
          | some (X86Op.imm v) => .ok (i64_to_u64 v)
          | some (X86Op.mem true disp) => .ok (checked_add_signed i.address disp)
          | some _ => .ok none
        | _ => .ok none
  | .aarch64, .aarch64 i =>
    match i.detail with
    | none => .ok none
    | some det =>
      if ¬ (CS_GRP_CALL ∈ det.groups ∨ CS_GRP_JUMP ∈ det.groups) then .ok none
      else
        match det.ops with
        | .arm64 ops =>
          match ops.head? with
          | none => .ok none
          | some (Arm64Op.imm v) => .ok (i64_to_u64 v)
          | some _ => .ok none
        | _ => .ok none
  | _, _ => .error "unsupported arch"

/-! ### Concrete objects used as witness inputs -/

/-- a Mach-O object: two zero-recorded-size symbols at `0x100`/`0x140`
inside the section `[0x100, 0x200)` -/
def machoObj : Obj :=
  Obj.mk .macho .aarch64
    [ObjSection.mk "__text" 0x100 0x100 16 []]
    [Sym.mk "a" 0x100 0 (.inSection 0), Sym.mk "b" 0x140 0 (.inSection 0)]
    []

/-- an ELF object whose only symbol records a size overrunning its
section `[0x100, 0x108)` -/
def elfOverrunObj : Obj :=
  Obj.mk .elf .x86_64
    [ObjSection.mk ".data" 0x100 8 8 [0, 0, 0, 0, 0, 0, 0, 0]]
    [Sym.mk "x" 0x100 9 (.inSection 0)]
    []

/-- an ELF object with a `.got` slot at `0x2008` whose dynamic relocation
targets symbol 1 (`bar` at `0x3000`) -/
def gotObj : Obj :=
  Obj.mk .elf .x86_64
    [ObjSection.mk ".text" 0x1000 0x100 16 [], ObjSection.mk ".got" 0x2000 0x10 8 []]
    [Sym.mk "foo" 0x1000 4 (.inSection 0), Sym.mk "bar" 0x3000 0 .undefined]
    [(0x2008, Reloc.mk (.symbol 1) 0)]

theorem sorted_getD_le {ks : List Nat} (hs : ks.Sorted (· ≤ ·))
    {i j : Nat} (hij : i ≤ j) (hj : j < ks.length) :
    ks.getD i 0 ≤ ks.getD j 0 := by
  rcases eq_or_lt_of_le hij with h | h
  · subst h; exact le_refl _
  · have hi : i < ks.length := lt_trans h hj
    rw [List.getD_eq_getElem ks 0 hi, List.getD_eq_getElem ks 0 hj]
    exact List.pairwise_iff_getElem.mp hs i j hi hj h

theorem bsLoop_spec (ks : List Nat) (t : Nat) (hs : ks.Sorted (· ≤ ·)) :
    ∀ fuel size base, 0 < size → size ≤ fuel → base + size ≤ ks.length →
      base ≤ bsLoop ks t fuel base size ∧
      bsLoop ks t fuel base size < base + size ∧
      (∀ j, bsLoop ks t fuel base size < j → j < base + size → t < ks.getD j 0) ∧
      (base < bsLoop ks t fuel base size → ks.getD (bsLoop ks t fuel base size) 0 ≤ t) := by
  intro fuel
  induction fuel with
  | zero =>
    intro size base hpos hfuel _
    omega
  | succ fuel ih =>
    intro size base hpos hfuel hlen
    by_cases hsz : 1 < size
    · have hhalf : 1 ≤ size / 2 := Nat.one_le_div_iff (by omega) |>.mpr (by omega)
      have hrec_pos : 0 < size - size / 2 := by omega
      have hrec_fuel : size - size / 2 ≤ fuel := by omega
      by_cases hc : t < ks.getD (base + size / 2) 0
      · -- Greater branch: keep base
        have hrec_len : base + (size - size / 2) ≤ ks.length := by omega
        obtain ⟨h1, h2, h3, h4⟩ := ih (size - size / 2) base hrec_pos hrec_fuel hrec_len
        rw [bsLoop, if_pos hsz, if_pos hc]
        refine ⟨h1, by omega, ?_, h4⟩
        intro j hj1 hj2
        by_cases hjw : j < base + (size - size / 2)
        · exact h3 j hj1 hjw
        · -- j ≥ base + (size - size/2) ≥ base + size/2 = mid, so ks[j] ≥ ks[mid] > t
          have hmle : base + size / 2 ≤ j := by omega
          have : ks.getD (base + size / 2) 0 ≤ ks.getD j 0 :=
            sorted_getD_le hs hmle (by omega)
          omega
      · -- Less-or-Equal branch: base := mid
        have hrec_len : (base + size / 2) + (size - size / 2) ≤ ks.length := by omega
        obtain ⟨h1, h2, h3, h4⟩ :=
          ih (size - size / 2) (base + size / 2) hrec_pos hrec_fuel hrec_len
        rw [bsLoop, if_pos hsz, if_neg hc]
        refine ⟨by omega, by omega, ?_, ?_⟩
        · intro j hj1 hj2
          exact h3 j hj1 (by omega)
        · intro _
          rcases Nat.lt_or_ge (base + size / 2)
              (bsLoop ks t fuel (base + size / 2) (size - size / 2)) with hlt | hge
          · exact h4 hlt
          · have : bsLoop ks t fuel (base + size / 2) (size - size / 2) = base + size / 2 := by
              omega
            rw [this]
            omega
    · rw [bsLoop, if_neg hsz]
      refine ⟨le_refl _, by omega, ?_, ?_⟩
      · intro j hj1 hj2
        omega
      · intro hcontra
        omega

/-- On a sorted key list, `Ok i` means `ks[i] = t` and every later key is
strictly greater (the branchless search lands on the *last* tied key). -/
theorem binarySearch_ok {ks : List Nat} {t i : Nat} (hs : ks.Sorted (· ≤ ·))
    (h : binarySearch ks t = .ok i) :
    i < ks.length ∧ ks.getD i 0 = t ∧
      (∀ j, i < j → j < ks.length → t < ks.getD j 0) := by
  unfold binarySearch at h
  by_cases hlen : ks.length = 0
  · rw [if_pos hlen] at h; exact absurd h (by simp)
  · rw [if_neg hlen] at h
    have hpos : 0 < ks.length := Nat.pos_of_ne_zero hlen
    obtain ⟨h1, h2, h3, _⟩ :=
      bsLoop_spec ks t hs ks.length ks.length 0 hpos (le_refl _) (by omega)
    set b := bsLoop ks t ks.length 0 ks.length with hb
    by_cases he : ks.getD b 0 = t
    · rw [if_pos he] at h
      injection h with h
      subst h
      exact ⟨by omega, he, fun j hj1 hj2 => h3 j hj1 (by omega)⟩
    · rw [if_neg he] at h
      by_cases hlt : ks.getD b 0 < t
      · rw [if_pos hlt] at h; exact absurd h (by simp)
      · rw [if_neg hlt] at h; exact absurd h (by simp)

/-- On a sorted key list, `Err e` means `t` is absent; `e` is the insertion
point: every key before `e` is `< t`, every key from `e` on is `> t`. -/
theorem binarySearch_err {ks : List Nat} {t e : Nat} (hs : ks.Sorted (· ≤ ·))
    (h : binarySearch ks t = .error e) :
    e ≤ ks.length ∧ (∀ j, j < e → ks.getD j 0 < t) ∧
      (∀ j, e ≤ j → j < ks.length → t < ks.getD j 0) := by
  unfold binarySearch at h
  by_cases hlen : ks.length = 0
  · rw [if_pos hlen] at h
    injection h with h
    subst h
    exact ⟨by omega, by omega, by omega⟩
  · rw [if_neg hlen] at h
    have hpos : 0 < ks.length := Nat.pos_of_ne_zero hlen
    obtain ⟨h1, h2, h3, h4⟩ :=
      bsLoop_spec ks t hs ks.length ks.length 0 hpos (le_refl _) (by omega)
    set b := bsLoop ks t ks.length 0 ks.length with hb
    by_cases he : ks.getD b 0 = t
    · rw [if_pos he] at h; exact absurd h (by simp)
    · rw [if_neg he] at h
      by_cases hlt : ks.getD b 0 < t
      · rw [if_pos hlt] at h
        injection h with h
        subst h
        refine ⟨by omega, ?_, ?_⟩
        · intro j hj
          have : ks.getD j 0 ≤ ks.getD b 0 := sorted_getD_le hs (by omega) (by omega)
          omega
        · intro j hj1 hj2
          exact h3 j (by omega) (by omega)
      · rw [if_neg hlt] at h
        injection h with h
        subst h
        have hbt : t < ks.getD b 0 := by omega
        have hb0 : b = 0 := by
          by_contra hb0
          have := h4 (by omega)
          omega
        refine ⟨by omega, by omega, ?_⟩
        intro j hj1 hj2
        rcases Nat.eq_or_lt_of_le hj1 with hj | hj
        · rw [← hj]
          exact hbt
        · exact h3 j (by omega) (by omega)

/-- On a sorted key list the search succeeds exactly when the target occurs. -/
theorem binarySearch_isOk_iff {ks : List Nat} {t : Nat} (hs : ks.Sorted (· ≤ ·)) :
    (∃ i, binarySearch ks t = .ok i) ↔ (∃ j, j < ks.length ∧ ks.getD j 0 = t) := by
  constructor
  · rintro ⟨i, hi⟩
    obtain ⟨h1, h2, _⟩ := binarySearch_ok hs hi
    exact ⟨i, h1, h2⟩
  · rintro ⟨j, hj, hjt⟩
    cases hres : binarySearch ks t with
    | ok i => exact ⟨i, rfl⟩
    | error e =>
      obtain ⟨_, hlt, hgt⟩ := binarySearch_err hs hres
      rcases Nat.lt_or_ge j e with hje | hje
      · have := hlt j hje; omega
      · have := hgt j hje hj; omega

/-! ### List access helpers -/

theorem getD_of_get? {α : Type _} {l : List α} {n : Nat} {a : α} (d : α)
    (h : l.get? n = some a) : l.getD n d = a := by
  simp only [List.getD_eq_getElem?_getD, List.get?_eq_getElem?] at *
  simp [h]

theorem mem_iff_exists_getD {l : List Nat} {a : Nat} :
    a ∈ l ↔ ∃ j, j < l.length ∧ l.getD j 0 = a := by
  rw [List.mem_iff_getElem]
  constructor
  · rintro ⟨i, h, rfl⟩
    exact ⟨i, h, List.getD_eq_getElem l 0 h⟩
  · rintro ⟨j, h, hj⟩
    refine ⟨j, h, ?_⟩
    rw [← List.getD_eq_getElem l 0 h, hj]

theorem binarySearch_err_not_mem {ks : List Nat} {t e : Nat}
    (hs : ks.Sorted (· ≤ ·)) (h : binarySearch ks t = .error e) : t ∉ ks := by
  obtain ⟨_, h1, h2⟩ := binarySearch_err hs h
  intro hmem
  obtain ⟨j, hj, hjt⟩ := mem_iff_exists_getD.mp hmem
  rcases Nat.lt_or_ge j e with hlt | hge
  · have := h1 j hlt; omega
  · have := h2 j hge hj; omega

/-- A sorted list's strictly-greater-than-`t` elements form the suffix
starting at the first index whose element exceeds `t`. -/
theorem filter_gt_eq_drop {ks : List Nat} {t : Nat} :
    ∀ {e : Nat}, (∀ j, j < e → ¬ t < ks.getD j 0) →
      (∀ j, e ≤ j → j < ks.length → t < ks.getD j 0) → e ≤ ks.length →
      ks.filter (fun k => t < k) = ks.drop e := by
  induction ks with
  | nil => intro e _ _ he; simp
  | cons x xs ih =>
    intro e h1 h2 he
    cases e with
    | zero =>
      rw [List.drop_zero]
      apply List.filter_eq_self.mpr
      intro a ha
      obtain ⟨j, hj, hja⟩ := mem_iff_exists_getD.mp ha
      have := h2 j (Nat.zero_le _) hj
      simp only [decide_eq_true_eq]
      omega
    | succ e =>
      have hx : ¬ t < x := by
        have := h1 0 (Nat.succ_pos _)
        simpa using this
      rw [List.filter_cons_of_neg (by simpa using hx), List.drop_succ_cons]
      apply ih
      · intro j hj
        have := h1 (j + 1) (by omega)
        simpa using this
      · intro j hj1 hj2
        have := h2 (j + 1) (by omega) (by simpa using Nat.succ_lt_succ hj2)
        simpa using this
      · simpa using Nat.le_of_succ_le_succ (by simpa using he)

/-- When `i` is the last index carrying key `t` in a sorted list, the next
strictly greater key is exactly the entry at `i + 1` (if any). -/
theorem nextGreater_of_last_eq {ks : List Nat} {t i : Nat}
    (hs : ks.Sorted (· ≤ ·)) (hi : i < ks.length) (hit : ks.getD i 0 = t)
    (hgt : ∀ j, i < j → j < ks.length → t < ks.getD j 0) :
    nextGreater ks t = ks.get? (i + 1) := by
  unfold nextGreater
  rw [filter_gt_eq_drop (e := i + 1) ?h1 ?h2 (by omega)]
  · rw [List.head?_drop, List.get?_eq_getElem?]
  case h1 =>
    intro j hj
    have : ks.getD j 0 ≤ ks.getD i 0 := sorted_getD_le hs (by omega) hi
    omega
  case h2 =>
    intro j hj1 hj2
    exact hgt j (by omega) hj2

/-! ### Derived-cache facts -/

theorem symlistKeys_sorted (o : Obj) : (symlistKeys o).Sorted (· ≤ ·) := by
  have h := List.sorted_insertionSort (fun i j => symAddr o i ≤ symAddr o j)
    (List.range o.symbols.length)
  exact List.Pairwise.map (symAddr o) (fun _ _ hab => hab) h

theorem mem_symlist {o : Obj} {idx : Nat} (h : idx < o.symbols.length) :
    idx ∈ symlist o := by
  unfold symlist
  rw [List.mem_insertionSort]
  exact List.mem_range.mpr h

theorem symAddr_mem_keys {o : Obj} {idx : Nat} (h : idx < o.symbols.length) :
    symAddr o idx ∈ symlistKeys o :=
  List.mem_map_of_mem _ (mem_symlist h)

theorem get?_some_lt_length {α : Type _} {l : List α} {n : Nat} {a : α}
    (h : l.get? n = some a) : n < l.length := by
  by_contra hc
  rw [List.get?_eq_none.mpr (by omega)] at h
  exact absurd h (by simp)

/-- The `Explorer::symbol_size` computes exactly what the spec describes
(`spec_symbol_size`), for every object and symbol index. -/
theorem symbol_size_eq_spec (o : Obj) (idx : Nat) :
    symbol_size o idx = spec_symbol_size o idx := by
  unfold symbol_size spec_symbol_size
  cases hget : o.symbols.get? idx with
  | none => rfl
  | some sym =>
    dsimp only
    by_cases hfmt : o.format ≠ BinaryFormat.macho
    · rw [if_pos hfmt, if_pos hfmt]
    · rw [if_neg hfmt, if_neg hfmt]
      have hidx : idx < o.symbols.length := get?_some_lt_length hget
      have haddr : symAddr o idx = sym.address := by
        unfold symAddr
        rw [getD_of_get? default hget]
      have hmem : sym.address ∈ symlistKeys o := haddr ▸ symAddr_mem_keys hidx
      have hsorted := symlistKeys_sorted o
      cases hbs : binarySearch (symlistKeys o) sym.address with
      | error e =>
        rw [if_neg (fun hm => (binarySearch_err_not_mem hsorted hbs) hm)]
      | ok i =>
        rw [if_pos hmem]
        obtain ⟨hi, hit, hgt⟩ := binarySearch_ok hsorted hbs
        rw [nextGreater_of_last_eq hsorted hi hit hgt]
        have hkeys : (symlistKeys o).get? (i + 1) =
            ((symlist o).get? (i + 1)).map (symAddr o) := by
          unfold symlistKeys
          rw [List.get?_eq_getElem?, List.get?_eq_getElem?, List.getElem?_map]
        rw [hkeys]
        dsimp only
        cases hnext : (symlist o).get? (i + 1) with
        | some j => rfl
        | none => rfl

/-! ### Hash and hex format facts -/

theorem leBytes_length (n : Nat) : ∀ x, (leBytes n x).length = n := by
  induction n with
  | zero => intro x; rfl
  | succ n ih => intro x; simp [leBytes, ih]

theorem hexLower_cons (b : Nat) (bs : List Nat) :
    hexLower (b :: bs) = hexChar (b / 16) :: hexChar (b % 16) :: hexLower bs := rfl

theorem hexLower_length (bs : List Nat) : (hexLower bs).length = 2 * bs.length := by
  induction bs with
  | nil => rfl
  | cons b bs ih =>
    rw [hexLower_cons]
    simp only [List.length_cons, ih]
    omega

theorem hexChar_mem (n : Nat) : hexChar n ∈ hexDigitChars := by
  unfold hexChar
  by_cases h : n < hexDigitChars.length
  · rw [List.getD_eq_getElem _ _ h]
    exact List.getElem_mem h
  · rw [List.getD_eq_default _ _ (by omega)]
    decide

theorem hexLower_mem {c : Char} {bs : List Nat} (h : c ∈ hexLower bs) :
    c ∈ hexDigitChars := by
  induction bs with
  | nil => simp [hexLower] at h
  | cons b bs ih =>
    rw [hexLower_cons] at h
    simp only [List.mem_cons] at h
    rcases h with rfl | rfl | h
    · exact hexChar_mem _
    · exact hexChar_mem _
    · exact ih h

/-- C1 (amended): the socket file name produced by `listen` is
`hashname`'s output: the 16-character lowercase-hex rendering of one
8-byte `DefaultHasher` digest of (pid, current time, path length, path)
— a single hash of per-run state, not an `H(cwd)-H(target)` pair (no
`-` ever occurs, and the cwd is not an input). -/
theorem hashname_format (pid sec nsec : Nat) (path : List Nat) :
    (hashname pid sec nsec path).length = 16 ∧
    (∀ c ∈ hashname pid sec nsec path, c ∈ hexDigitChars) ∧
    '-' ∉ hashname pid sec nsec path := by
  refine ⟨?_, ?_, ?_⟩
  · unfold hashname
    rw [hexLower_length, leBytes_length]
  · intro c hc
    exact hexLower_mem hc
  · intro hc
    exact absurd (hexLower_mem hc) (by decide)

/-- C1 (counterexample): `hashname` hashes the process id and the current
time, so two `listen` runs on the same target from the same working
directory — here pid 1234, path "ab", clock seconds 100 vs 101 — yield
different socket file names, contradicting the claimed stability. -/
theorem hashname_unstable :
    hashname 1234 100 0 [97, 98] ≠ hashname 1234 101 0 [97, 98] := by decide

/-! ### Socket discovery facts -/

theorem call_discover_foldl (l : List DirEntry) :
    ∀ acc : Option String,
      l.foldl (fun found e => if e.isSocket then some e.name else found) acc =
        match l.reverse.find? (fun e => e.isSocket) with
        | some e => some e.name
        | none => acc := by
  induction l with
  | nil => intro acc; rfl
  | cons x xs ih =>
    intro acc
    rw [List.foldl_cons, ih, List.reverse_cons, List.find?_append]
    cases hf : xs.reverse.find? (fun e => e.isSocket) with
    | some e => rfl
    | none =>
      simp only [Option.none_or]
      cases hx : x.isSocket <;> simp [List.find?, hx]

/-- C2 (amended): with `FI_SESSION` unset, the client walks the directory
entries in enumeration order and selects the *last* socket entry (no
cwd-hash preference, no sorting); it fails exactly when no entry is a
socket. -/
theorem call_discover_last_socket (entries : List DirEntry) :
    call_discover entries =
      (entries.reverse.find? (fun e => e.isSocket)).map (fun e => e.name) ∧
    (call_discover entries = none ↔ ∀ e ∈ entries, e.isSocket = false) := by
  have h := call_discover_foldl entries none
  have hmain : call_discover entries =
      (entries.reverse.find? (fun e => e.isSocket)).map (fun e => e.name) := by
    rw [call_discover, h]
    cases entries.reverse.find? (fun e => e.isSocket) <;> rfl
  refine ⟨hmain, ?_⟩
  rw [hmain]
  constructor
  · intro hnone
    cases hf : entries.reverse.find? (fun e => e.isSocket) with
    | some e => rw [hf] at hnone; exact absurd hnone (by simp)
    | none =>
      intro e he
      have := List.find?_eq_none.mp hf e (List.mem_reverse.mpr he)
      simpa using this
  · intro hall
    have : entries.reverse.find? (fun e => e.isSocket) = none :=
      List.find?_eq_none.mpr (fun a ha => by
        simp [hall a (List.mem_reverse.mp ha)])
    rw [this]
    rfl

/-- C2 (counterexample): two sockets, enumerated as `aa11` then `zz99`,
with cwd hash `aa`: the spec's rule picks `aa11` (prefix match, first in
sorted order) but the code picks `zz99` (the last entry seen). -/
theorem call_discover_ignores_cwd_hash :
    call_discover [DirEntry.mk "aa11" true, DirEntry.mk "zz99" true] = some "zz99" ∧
    spec_discover "aa" [DirEntry.mk "aa11" true, DirEntry.mk "zz99" true] = some "aa11" ∧
    some "zz99" ≠ some "aa11" := by decide

/-! ### Disassembler construction facts -/

/-- C6 (counterexample): the disassembler façade rejects RISC-V-64 — its
constructor has no `Riscv64` arm and falls through to the
"unsupported arch" error, though the claim lists RISC-V-64 as accepted. -/
theorem disassembler_new_rejects_riscv64 :
    Disassembler.new Architecture.riscv64 = .error "unsupported arch" ∧
    exceptIsOk (Disassembler.new Architecture.riscv64) = false := by decide

/-- C6 (amended): `Disassembler::new` succeeds exactly for x86-64,
AArch64, Wasm-32 and Wasm-64, and fails with the unsupported-arch error
for every other architecture (including RISC-V-64). -/
theorem disassembler_new_supported (a : Architecture) :
    (exceptIsOk (Disassembler.new a) = true ↔
      (a = .x86_64 ∨ a = .aarch64 ∨ a = .wasm32 ∨ a = .wasm64)) ∧
    (exceptIsOk (Disassembler.new a) = false →
      Disassembler.new a = .error "unsupported arch") := by
  cases a <;> exact ⟨by decide, by decide⟩

/-! ### `by_section` alignment fact -/

/-- C8 (code bug): `by_section` never aligns the address down.
`align_offset` returns an offset in `[0, align)`, which the code binds
to `new_addr` and compares against `align` as if it were an address, so
the no-change branch is always taken: `show 0x103 --align 16` displays
from `0x103`, not the claimed `0x100`. -/
theorem by_section_addr_not_aligned :
    by_section_addr 0x103 16 = 0x103 ∧ 0x103 % 16 = 3 ∧
    by_section_addr 0x103 16 ≠ 0x100 := by decide

/-! ### `symbol_size` invariant counterexample -/

/-- C4 (counterexample): `elfOverrunObj`'s only symbol sits in section 0
(`[0x100, 0x108)`) with recorded size 9; `symbol_size` returns the
recorded size, and `0x100 + 9 = 0x109 > 0x108` violates the claimed
bound `sym.address + size ≤ section.address + section.size`. -/
theorem symbol_size_exceeds_section :
    symbol_size elfOverrunObj 0 = .ok 9 ∧
    (elfOverrunObj.symbols.getD 0 default).sect = SymSection.inSection 0 ∧
    ¬ ((elfOverrunObj.symbols.getD 0 default).address + 9 ≤
        (elfOverrunObj.sections.getD 0 default).address +
          (elfOverrunObj.sections.getD 0 default).size) := by decide

/-! ### C3: `symbol_size` follows its specification -/

/-- C3: `symbol_size` computes exactly `spec_symbol_size` — for Mach-O the
distance to the next *strictly greater* address in the address-sorted
symbol list (ties at the same address are skipped); when no strictly
greater address exists, `section.end − address` for the symbol's
section, or the recorded size with no known section; failing exactly
when the symbol's address is absent from the sorted list; and the
recorded size for every non-Mach-O format. -/
theorem symbol_size_as_specified (o : Obj) (idx : Nat) :
    symbol_size o idx = spec_symbol_size o idx :=
  symbol_size_eq_spec o idx

/-! ### C4: what bound `symbol_size` actually guarantees -/

theorem nextGreater_some_gt {ks : List Nat} {a a' : Nat}
    (h : nextGreater ks a = some a') : a < a' := by
  unfold nextGreater at h
  have hmem : a' ∈ ks.filter (fun k => a < k) :=
    List.mem_of_mem_head? (by simp [h])
  have := List.of_mem_filter hmem
  simpa using this

/-- C4 (amended): `symbol_size` values are natural numbers (never
negative) and the Mach-O subtraction cannot underflow: when a next
strictly-greater address `a'` exists, `sym.address + size = a'` exactly;
in the fallback (no greater address) with a known section containing
the address, `sym.address + size = section.end`.  For non-Mach-O the
recorded size is returned and no section bound is guaranteed. -/
theorem symbol_size_gap (o : Obj) (idx : Nat) (sym : Sym) (n : Nat)
    (h1 : o.symbols.get? idx = some sym) (h2 : symbol_size o idx = .ok n) :
    (o.format ≠ .macho → n = sym.size) ∧
    (o.format = .macho →
      ∀ a', nextGreater (symlistKeys o) sym.address = some a' →
        sym.address ≤ a' ∧ sym.address + n = a') ∧
    (o.format = .macho → nextGreater (symlistKeys o) sym.address = none →
      ∀ sidx sec, sym.sect = .inSection sidx → o.sections.get? sidx = some sec →
        sym.address ≤ sec.address + sec.size →
        sym.address + n = sec.address + sec.size) := by
  rw [symbol_size_eq_spec] at h2
  unfold spec_symbol_size at h2
  rw [h1] at h2
  dsimp only at h2
  by_cases hfmt : o.format ≠ BinaryFormat.macho
  · rw [if_pos hfmt] at h2
    injection h2 with h2
    exact ⟨fun _ => h2.symm, fun hmac => absurd hmac hfmt,
      fun hmac => absurd hmac hfmt⟩
  · rw [if_neg hfmt] at h2
    rw [not_not] at hfmt
    by_cases hmem : sym.address ∈ symlistKeys o
    · rw [if_pos hmem] at h2
      cases hng : nextGreater (symlistKeys o) sym.address with
      | some a' =>
        rw [hng] at h2
        dsimp only at h2
        injection h2 with h2
        have hgt := nextGreater_some_gt hng
        refine ⟨fun hne => absurd hfmt hne, ?_, ?_⟩
        · intro _ a'' hng''
          injection hng'' with hng''
          subst hng''
          omega
        · intro _ hng0
          exact absurd hng0 (by simp)
      | none =>
        rw [hng] at h2
        dsimp only at h2
        refine ⟨fun hne => absurd hfmt hne, ?_, ?_⟩
        · intro _ a'' hng''
          exact absurd hng'' (by simp)
        · intro _ _ sidx sec hsect hsec hle
          rw [hsect] at h2
          dsimp only at h2
          rw [hsec] at h2
          injection h2 with h2
          omega
    · rw [if_neg hmem] at h2
      exact absurd h2 (by simp)

/-- witness for `symbol_size_gap` at `machoObj`, symbol 0 (size 64): the
inferred size reaches exactly the next symbol's address `0x140`. -/
theorem symbol_size_gap_witness :
    (0x100 : Nat) ≤ 0x140 ∧ (0x100 : Nat) + 64 = 0x140 := by
  have h := symbol_size_gap machoObj 0 (Sym.mk "a" 0x100 0 (.inSection 0)) 64
    (by decide) (by decide)
  exact h.2.1 rfl 0x140 (by decide)

/-! ### C10: `by_symbol` membership uses the recorded size -/

theorem addr2symKeys_sorted (o : Obj) :
    ((addr2sym o).map Prod.fst).Sorted (· ≤ ·) := by
  unfold addr2sym
  have h := List.sorted_insertionSort (fun a b : Nat × String => a.1 ≤ b.1)
    (o.symbols.filterMap (fun s =>
      match s.sect with
      | .inSection _ => some (s.address, s.name)
      | _ => none))
  exact List.Pairwise.map Prod.fst (fun _ _ hab => hab) h

theorem dynRelaKeys_sorted (o : Obj) :
    ((dyn_rela o).map Prod.fst).Sorted (· ≤ ·) := by
  unfold dyn_rela
  have h := List.sorted_insertionSort (fun a b : Nat × Reloc => a.1 ≤ b.1)
    o.dynRelocs
  exact List.Pairwise.map Prod.fst (fun _ _ hab => hab) h

theorem getD_mem {α : Type _} [Inhabited α] {l : List α} {i : Nat}
    (h : i < l.length) : l.getD i default ∈ l := by
  rw [List.getD_eq_getElem _ _ h]
  exact List.getElem_mem h

theorem getD_map_fst {β : Type _} [Inhabited (Nat × β)] (l : List (Nat × β))
    {j : Nat} (h : j < l.length) :
    (l.map Prod.fst).getD j 0 = (l.getD j default).1 := by
  rw [List.getD_eq_getElem _ _ (by simpa using h), List.getD_eq_getElem _ _ h,
    List.getElem_map]

/-- C10: in `show ADDR` symbol lookup, a near-miss is accepted only if
`addr` lies in `[sym.address, sym.address + sym.size)` for the symbol's
*recorded* `size` field — so when every recorded size is zero (as on
Mach-O) and `addr` is not exactly a mapped symbol address, the lookup
fails, even though `symbol_size` would infer a positive extent. -/
theorem by_symbol_interior_not_found (o : Obj) (addr : Nat)
    (hmiss : ∀ e ∈ addr2sym o, e.1 ≠ addr)
    (hzero : ∀ s ∈ o.symbols, s.size = 0) :
    exceptIsOk (by_symbol_lookup o addr) = false := by
  unfold by_symbol_lookup
  dsimp only
  cases hbs : binarySearch ((addr2sym o).map Prod.fst) addr with
  | ok i =>
    obtain ⟨hi, hkey, _⟩ := binarySearch_ok (addr2symKeys_sorted o) hbs
    have hlen : i < (addr2sym o).length := by simpa using hi
    rw [getD_map_fst _ hlen] at hkey
    exact absurd hkey (hmiss _ (getD_mem hlen))
  | error e =>
    dsimp only
    cases hget : (addr2sym o).get? (e - 1) with
    | none => rfl
    | some me =>
      dsimp only
      cases hbs2 : binarySearch (symlistKeys o) me.1 with
      | error e2 => rfl
      | ok k =>
        dsimp only
        have hsize : (o.symbols.getD ((symlist o).getD k 0) default).size = 0 := by
          by_cases hj : (symlist o).getD k 0 < o.symbols.length
          · exact hzero _ (getD_mem hj)
          · rw [List.getD_eq_default _ _ (by omega)]
            rfl
        rw [if_neg]
        · rfl
        · intro hcon
          rw [hsize] at hcon
          omega

/-- witness for `by_symbol_interior_not_found`: address `0x110` lies
strictly inside symbol `a`'s inferred 64-byte body in `machoObj`, yet
the lookup fails while `symbol_size` infers 64. -/
theorem by_symbol_interior_not_found_witness :
    exceptIsOk (by_symbol_lookup machoObj 0x110) = false ∧
    symbol_size machoObj 0 = .ok 64 :=
  ⟨by_symbol_interior_not_found machoObj 0x110 (by decide) (by decide), by decide⟩

/-! ### C9: `u64ptr` hex parsing -/

/-- C9 (counterexample): the minimal hexadecimal rendering of 5 is "5",
a single digit; `decode_len` rejects the odd digit count, so
`u64ptr "0x5"` fails instead of returning 5. -/
theorem u64ptr_rejects_odd_digit_hex :
    u64ptr "0x5" = .error "hex decode failed" ∧ u64ptr "0x5" ≠ .ok 5 := by decide

theorem beNibblesOf_length (n : Nat) : ∀ x, (beNibblesOf n x).length = n := by
  induction n with
  | zero => intro x; rfl
  | succ n ih => intro x; simp [beNibblesOf, ih]

theorem hexPad16_length (x : Nat) : (hexPad16 x).length = 16 := by
  unfold hexPad16
  rw [List.length_map, beNibblesOf_length]

theorem hexVal_hexChar : ∀ d, d < 16 → hexVal (hexChar d) = some d := by decide

theorem decodeHexPairs_beNibbles (m : Nat) :
    ∀ x, x < 16 ^ (2 * m) →
      decodeHexPairs ((beNibblesOf (2 * m) x).map hexChar) = some (beBytesOf m x) := by
  induction m with
  | zero =>
    intro x hx
    have hx0 : x = 0 := by omega
    subst hx0
    rfl
  | succ m ih =>
    intro x hx
    have hpos : 0 < (16 : Nat) ^ (2 * m) := Nat.pos_pow_of_pos _ (by norm_num)
    have e1 : 2 * (m + 1) = 2 * m + 1 + 1 := by ring
    rw [e1]
    rw [show beNibblesOf (2 * m + 1 + 1) x =
      x / 16 ^ (2 * m + 1) :: beNibblesOf (2 * m + 1) (x % 16 ^ (2 * m + 1)) from rfl]
    rw [show beNibblesOf (2 * m + 1) (x % 16 ^ (2 * m + 1)) =
      (x % 16 ^ (2 * m + 1)) / 16 ^ (2 * m) ::
        beNibblesOf (2 * m) ((x % 16 ^ (2 * m + 1)) % 16 ^ (2 * m)) from rfl]
    have hd1 : x / 16 ^ (2 * m + 1) < 16 := by
      rw [Nat.div_lt_iff_lt_mul (Nat.pos_pow_of_pos _ (by norm_num))]
      calc x < 16 ^ (2 * (m + 1)) := hx
        _ = 16 * 16 ^ (2 * m + 1) := by ring
    have hd2 : (x % 16 ^ (2 * m + 1)) / 16 ^ (2 * m) < 16 := by
      rw [Nat.div_lt_iff_lt_mul hpos]
      calc x % 16 ^ (2 * m + 1) < 16 ^ (2 * m + 1) :=
            Nat.mod_lt _ (Nat.pos_pow_of_pos _ (by norm_num))
        _ = 16 * 16 ^ (2 * m) := by ring
    have hmm : (x % 16 ^ (2 * m + 1)) % 16 ^ (2 * m) = x % 16 ^ (2 * m) :=
      Nat.mod_mod_of_dvd x (pow_dvd_pow 16 (by omega))
    rw [List.map_cons, List.map_cons]
    rw [show decodeHexPairs
        (hexChar (x / 16 ^ (2 * m + 1)) ::
          hexChar ((x % 16 ^ (2 * m + 1)) / 16 ^ (2 * m)) ::
          (beNibblesOf (2 * m) ((x % 16 ^ (2 * m + 1)) % 16 ^ (2 * m))).map hexChar) =
      (do
        let h ← hexVal (hexChar (x / 16 ^ (2 * m + 1)))
        let l ← hexVal (hexChar ((x % 16 ^ (2 * m + 1)) / 16 ^ (2 * m)))
        let bs ← decodeHexPairs
          ((beNibblesOf (2 * m) ((x % 16 ^ (2 * m + 1)) % 16 ^ (2 * m))).map hexChar)
        pure ((h * 16 + l) :: bs)) from rfl]
    rw [hexVal_hexChar _ hd1, hexVal_hexChar _ hd2, hmm,
      ih (x % 16 ^ (2 * m)) (Nat.mod_lt _ hpos)]
    show some _ = some (beBytesOf (m + 1) x)
    rw [show beBytesOf (m + 1) x = x / 256 ^ m :: beBytesOf m (x % 256 ^ m) from rfl]
    have h256 : (256 : Nat) ^ m = 16 ^ (2 * m) := by
      rw [pow_mul]
      norm_num
    have hq : x / 16 ^ (2 * m + 1) = x / 16 ^ (2 * m) / 16 := by
      rw [Nat.div_div_eq_div_mul,
        show (16 : Nat) ^ (2 * m) * 16 = 16 ^ (2 * m + 1) from by ring]
    have hr : (x % 16 ^ (2 * m + 1)) / 16 ^ (2 * m) = x / 16 ^ (2 * m) % 16 := by
      have : (16 : Nat) ^ (2 * m + 1) = 16 ^ (2 * m) * 16 := by ring
      rw [this, Nat.mod_mul_right_div_self]
    have hhead : x / 16 ^ (2 * m + 1) * 16 +
        (x % 16 ^ (2 * m + 1)) / 16 ^ (2 * m) = x / 256 ^ m := by
      rw [hq, hr, h256]
      have := Nat.div_add_mod (x / 16 ^ (2 * m)) 16
      omega
    rw [hhead, h256]

theorem fromBeBytes_beBytesOf (m : Nat) :
    ∀ x acc, x < 256 ^ m →
      (beBytesOf m x).foldl (fun acc b => acc * 256 + b) acc = acc * 256 ^ m + x := by
  induction m with
  | zero =>
    intro x acc hx
    simp [beBytesOf]
    omega
  | succ m ih =>
    intro x acc hx
    rw [show beBytesOf (m + 1) x = x / 256 ^ m :: beBytesOf m (x % 256 ^ m) from rfl]
    rw [List.foldl_cons]
    rw [ih _ _ (Nat.mod_lt _ (Nat.pos_pow_of_pos _ (by norm_num)))]
    have hsplit : 256 ^ m * (x / 256 ^ m) + x % 256 ^ m = x := Nat.div_add_mod x (256 ^ m)
    calc (acc * 256 + x / 256 ^ m) * 256 ^ m + x % 256 ^ m
        = acc * (256 ^ m * 256) + (256 ^ m * (x / 256 ^ m) + x % 256 ^ m) := by ring
      _ = acc * 256 ^ (m + 1) + x := by rw [hsplit, pow_succ]

theorem u64ptrChars_eq_parse {cs : List Char} (h : ∀ v, cs ≠ '0' :: 'x' :: v) :
    u64ptrChars cs = parseU64 cs := by
  unfold u64ptrChars
  split
  · exact absurd rfl (h _)
  · rfl

theorem stripPlus_of_digits {cs : List Char} (hdig : ∀ c ∈ cs, c.isDigit) :
    stripPlus cs = cs := by
  cases cs with
  | nil => rfl
  | cons c rest =>
    show (if c = '+' then rest else c :: rest) = c :: rest
    rw [if_neg]
    intro hc
    subst hc
    have := hdig '+' (by simp)
    simp at this

theorem parseU64_digits {cs : List Char} (hne : cs ≠ [])
    (hdig : ∀ c ∈ cs, c.isDigit) (hlt : digitsVal cs < 2 ^ 64) :
    parseU64 cs = .ok (digitsVal cs) := by
  unfold parseU64
  rw [stripPlus_of_digits hdig]
  rw [if_neg (by simp [List.isEmpty_iff, hne]), if_pos (List.all_eq_true.mpr hdig)]
  dsimp only
  rw [if_pos hlt]

/-- C9 (amended): `u64ptr` round-trips `0x`-prefixed hex only for an
*even* digit count — in particular for the 16-digit zero-padded
rendering of any `x < 2^64` — and parses any decimal digit string with
value below `2^64` to that value.  (An odd-length hex rendering, such
as the minimal rendering of 5, is rejected by `decode_len`.) -/
theorem u64ptr_roundtrip (x : Nat) (hx : x < 2 ^ 64) :
    u64ptr (String.mk ('0' :: 'x' :: hexPad16 x)) = .ok x ∧
    (∀ cs : List Char, cs ≠ [] → (∀ c ∈ cs, c.isDigit) → digitsVal cs < 2 ^ 64 →
      u64ptrChars cs = .ok (digitsVal cs)) := by
  constructor
  · show u64ptrChars ('0' :: 'x' :: hexPad16 x) = .ok x
    rw [show u64ptrChars ('0' :: 'x' :: hexPad16 x) =
      (if (hexPad16 x).length % 2 ≠ 0 then .error "hex decode failed"
       else if 8 < (hexPad16 x).length / 2 then .error "hex value is greater than 64bit"
       else
         match decodeHexPairs (hexPad16 x) with
         | none => .error "hex decode failed"
         | some bytes =>
           .ok (fromBeBytes (List.replicate (8 - (hexPad16 x).length / 2) 0 ++ bytes)))
      from rfl]
    rw [hexPad16_length]
    rw [if_neg (by norm_num), if_neg (by norm_num)]
    have hx16 : x < 16 ^ (2 * 8) := by
      calc x < 2 ^ 64 := hx
        _ = 16 ^ (2 * 8) := by norm_num
    have hdec : decodeHexPairs (hexPad16 x) = some (beBytesOf 8 x) := by
      have h := decodeHexPairs_beNibbles 8 x hx16
      unfold hexPad16
      norm_num at h
      exact h
    rw [hdec]
    dsimp only
    rw [show (8 : Nat) - 16 / 2 = 0 from rfl, List.replicate_zero, List.nil_append]
    have hx256 : x < 256 ^ 8 := by
      calc x < 2 ^ 64 := hx
        _ = 256 ^ 8 := by norm_num
    have h := fromBeBytes_beBytesOf 8 x 0 hx256
    unfold fromBeBytes
    rw [h]
    norm_num
  · intro cs hne hdig hlt
    rw [u64ptrChars_eq_parse, parseU64_digits hne hdig hlt]
    intro v hv
    have := hdig 'x' (by rw [hv]; simp)
    simp at this

/-- witness for `u64ptr_roundtrip` at `x = 255`: the padded hex form
parses back to 255, and so does the decimal string "255". -/
theorem u64ptr_roundtrip_witness :
    u64ptr (String.mk ('0' :: 'x' :: hexPad16 255)) = .ok 255 ∧
    u64ptrChars ['2', '5', '5'] = .ok 255 := by
  have h := u64ptr_roundtrip 255 (by norm_num)
  refine ⟨h.1, ?_⟩
  have h2 := h.2 ['2', '5', '5'] (by decide) (by decide) (by decide)
  exact h2.trans (by decide)

/-! ### C7: call/jump target extraction -/

/-- C7 (counterexample): for a decoded Wasm instruction, `operand2addr`
fails with the unsupported-arch *error* rather than returning `None`,
so "in all other cases it returns None" does not hold as stated. -/
theorem operand2addr_wasm_errors :
    operand2addr .wasm (.wasm 0) = .error "unsupported arch" ∧
    operand2addr .wasm (.wasm 0) ≠ .ok none := by decide

/-- C7 (amended): a target address is produced only for instructions in
the call or jump group on the x86-64 or AArch64 backend; there, an
x86-64 (non-negative) immediate yields the immediate value, an x86-64
RIP-based memory operand yields `inst.address + displacement` (checked
signed addition), an AArch64 immediate yields the immediate value, any
other first operand (or a missing detail / group) yields `None`; Wasm
instructions yield the unsupported-arch error instead of `None`. -/
theorem operand2addr_cases :
    (∀ d inst a, operand2addr d inst = .ok (some a) →
      ∃ i det, (inst = Inst.x86_64 i ∨ inst = Inst.aarch64 i) ∧
        i.detail = some det ∧
        (CS_GRP_CALL ∈ det.groups ∨ CS_GRP_JUMP ∈ det.groups)) ∧
    (∀ addr groups v rest,
      (CS_GRP_CALL ∈ groups ∨ CS_GRP_JUMP ∈ groups) →
      operand2addr .x86_64 (.x86_64 (Insn.mk addr (some (InsnDetail.mk groups
        (.x86 (X86Op.imm v :: rest)))))) = .ok (i64_to_u64 v)) ∧
    (∀ addr groups disp rest,
      (CS_GRP_CALL ∈ groups ∨ CS_GRP_JUMP ∈ groups) →
      operand2addr .x86_64 (.x86_64 (Insn.mk addr (some (InsnDetail.mk groups
        (.x86 (X86Op.mem true disp :: rest)))))) =
        .ok (checked_add_signed addr disp)) ∧
    (∀ addr groups v rest,
      (CS_GRP_CALL ∈ groups ∨ CS_GRP_JUMP ∈ groups) →
      operand2addr .aarch64 (.aarch64 (Insn.mk addr (some (InsnDetail.mk groups
        (.arm64 (Arm64Op.imm v :: rest)))))) = .ok (i64_to_u64 v)) ∧
    (∀ i det, i.detail = some det →
      ¬ (CS_GRP_CALL ∈ det.groups ∨ CS_GRP_JUMP ∈ det.groups) →
      operand2addr .x86_64 (.x86_64 i) = .ok none ∧
      operand2addr .aarch64 (.aarch64 i) = .ok none) ∧
    (∀ off, operand2addr .wasm (.wasm off) = .error "unsupported arch") := by
  refine ⟨?_, ?_, ?_, ?_, ?_, ?_⟩
  · intro d inst a h
    match d, inst with
    | .x86_64, .x86_64 i =>
      unfold operand2addr at h
      dsimp only at h
      cases hdet : i.detail with
      | none =>
        rw [hdet] at h
        exact absurd h (by simp)
      | some det =>
        rw [hdet] at h
        dsimp only at h
        by_cases hg : CS_GRP_CALL ∈ det.groups ∨ CS_GRP_JUMP ∈ det.groups
        · exact ⟨i, det, Or.inl rfl, hdet, hg⟩
        · rw [if_pos hg] at h
          exact absurd h (by simp)
    | .aarch64, .aarch64 i =>
      unfold operand2addr at h
      dsimp only at h
      cases hdet : i.detail with
      | none =>
        rw [hdet] at h
        exact absurd h (by simp)
      | some det =>
        rw [hdet] at h
        dsimp only at h
        by_cases hg : CS_GRP_CALL ∈ det.groups ∨ CS_GRP_JUMP ∈ det.groups
        · exact ⟨i, det, Or.inr rfl, hdet, hg⟩
        · rw [if_pos hg] at h
          exact absurd h (by simp)
    | .x86_64, .aarch64 i => exact absurd h (by simp [operand2addr])
    | .x86_64, .wasm off => exact absurd h (by simp [operand2addr])
    | .aarch64, .x86_64 i => exact absurd h (by simp [operand2addr])
    | .aarch64, .wasm off => exact absurd h (by simp [operand2addr])
    | .wasm, .x86_64 i => exact absurd h (by simp [operand2addr])
    | .wasm, .aarch64 i => exact absurd h (by simp [operand2addr])
    | .wasm, .wasm off => exact absurd h (by simp [operand2addr])
  · intro addr groups v rest hg
    unfold operand2addr
    dsimp only
    rw [if_neg (not_not_intro hg)]
    rfl
  · intro addr groups disp rest hg
    unfold operand2addr
    dsimp only
    rw [if_neg (not_not_intro hg)]
    rfl
  · intro addr groups v rest hg
    unfold operand2addr
    dsimp only
    rw [if_neg (not_not_intro hg)]
    rfl
  · intro i det hdet hg
    constructor
    · unfold operand2addr
      dsimp only
      rw [hdet]
      dsimp only
      rw [if_pos hg]
    · unfold operand2addr
      dsimp only
      rw [hdet]
      dsimp only
      rw [if_pos hg]
  · intro off
    rfl

/-- witness for `operand2addr_cases`: a call instruction at `0x1100`
with immediate operand `0x3000` resolves to target `0x3000`. -/
theorem operand2addr_cases_witness :
    operand2addr .x86_64 (.x86_64 (Insn.mk 0x1100 (some (InsnDetail.mk [2]
      (.x86 [X86Op.imm 0x3000]))))) = .ok (some 0x3000) := by
  have h := operand2addr_cases
  have h2 := h.2.1 0x1100 [2] 0x3000 [] (by decide)
  exact h2.trans (by decide)

/-! ### C5: the address-to-name resolver -/

theorem binarySearch_ok_unique {ks : List Nat} {t i k : Nat}
    (hs : ks.Sorted (· ≤ ·)) (hbs : binarySearch ks t = .ok k)
    (hi : i < ks.length) (hit : ks.getD i 0 = t)
    (hlast : ∀ j, i < j → j < ks.length → ks.getD j 0 ≠ t) : k = i := by
  obtain ⟨hk, hkt, hgt⟩ := binarySearch_ok hs hbs
  rcases Nat.lt_trichotomy k i with h | h | h
  · have := hgt i h hi
    omega
  · exact h
  · exact absurd hkt (hlast k h hk)

theorem binarySearch_err_unique {ks : List Nat} {t e i : Nat}
    (hs : ks.Sorted (· ≤ ·)) (hbs : binarySearch ks t = .error e)
    (hi : i ≤ ks.length)
    (hlow : ∀ j, j < i → ks.getD j 0 < t)
    (hhigh : ∀ j, i ≤ j → j < ks.length → t < ks.getD j 0) : e = i := by
  obtain ⟨he, h1, h2⟩ := binarySearch_err hs hbs
  rcases Nat.lt_trichotomy e i with h | h | h
  · have ha := hlow e h
    have hb := h2 e (le_refl _) (by omega)
    omega
  · exact h
  · have ha := h1 i h
    have hb := hhigh i (le_refl _) (by omega)
    omega

/-- C5: `query_symbol_by_addr` behaves as specified —
(1) an exact address hit in the sorted symbol map returns that entry's
name with the queried address (the search lands on the last tied
entry);
(2) on a miss outside the `.got` section (or with no `.got`) there is no
match;
(3) on a miss inside `.got`, an exact relocation-address hit dispatches
on that relocation's target;
(4) with no exact hit, the next-higher relocation address dispatches
when it lies within `[addr, addr + 8)` and yields no match otherwise;
(5) with no relocation at or above `addr` there is no match.
Dispatch (`relaDispatch`) maps `Symbol(idx)` to that symbol's name and
address, `Absolute` to the map entry at the addend, others to no match. -/
theorem query_symbol_follows_spec (o : Obj) (addr : Nat) :
    (∀ i, i < (addr2sym o).length → ((addr2sym o).getD i default).1 = addr →
      (∀ j, i < j → j < (addr2sym o).length →
        ((addr2sym o).getD j default).1 ≠ addr) →
      query_symbol_by_addr o addr = some (((addr2sym o).getD i default).2, addr)) ∧
    ((∀ e ∈ addr2sym o, e.1 ≠ addr) →
      (∀ sec, section_by_name o ".got" = some sec →
        ¬ (sec.address ≤ addr ∧ addr < sec.address + sec.size)) →
      query_symbol_by_addr o addr = none) ∧
    ((∀ e ∈ addr2sym o, e.1 ≠ addr) →
      ∀ sec, section_by_name o ".got" = some sec →
        sec.address ≤ addr → addr < sec.address + sec.size →
      ∀ i, i < (dyn_rela o).length → ((dyn_rela o).getD i default).1 = addr →
        (∀ j, i < j → j < (dyn_rela o).length →
          ((dyn_rela o).getD j default).1 ≠ addr) →
        query_symbol_by_addr o addr = relaDispatch o ((dyn_rela o).getD i default)) ∧
    ((∀ e ∈ addr2sym o, e.1 ≠ addr) →
      ∀ sec, section_by_name o ".got" = some sec →
        sec.address ≤ addr → addr < sec.address + sec.size →
      (∀ e ∈ dyn_rela o, e.1 ≠ addr) →
      ∀ i, i < (dyn_rela o).length → addr < ((dyn_rela o).getD i default).1 →
        (∀ j, j < i → ((dyn_rela o).getD j default).1 < addr) →
        ((((dyn_rela o).getD i default).1 < addr + 8 →
          query_symbol_by_addr o addr =
            relaDispatch o ((dyn_rela o).getD i default)) ∧
         (addr + 8 ≤ ((dyn_rela o).getD i default).1 →
          query_symbol_by_addr o addr = none))) ∧
    ((∀ e ∈ addr2sym o, e.1 ≠ addr) →
      ∀ sec, section_by_name o ".got" = some sec →
        sec.address ≤ addr → addr < sec.address + sec.size →
      (∀ e ∈ dyn_rela o, e.1 < addr) →
      query_symbol_by_addr o addr = none) := by
  have hs := addr2symKeys_sorted o
  have hrs := dynRelaKeys_sorted o
  have hmap_err : (∀ e ∈ addr2sym o, e.1 ≠ addr) →
      ∃ e', binarySearch ((addr2sym o).map Prod.fst) addr = .error e' := by
    intro hmiss
    cases hbs : binarySearch ((addr2sym o).map Prod.fst) addr with
    | ok k =>
      obtain ⟨hk, hkt, _⟩ := binarySearch_ok hs hbs
      have hk' : k < (addr2sym o).length := by simpa using hk
      rw [getD_map_fst _ hk'] at hkt
      exact absurd hkt (hmiss _ (getD_mem hk'))
    | error e' => exact ⟨e', rfl⟩
  refine ⟨?_, ?_, ?_, ?_, ?_⟩
  · -- (1) exact hit
    intro i hi hit hlast
    have hklen : i < ((addr2sym o).map Prod.fst).length := by simpa using hi
    have hkey : ((addr2sym o).map Prod.fst).getD i 0 = addr := by
      rw [getD_map_fst _ hi]
      exact hit
    have hlast' : ∀ j, i < j → j < ((addr2sym o).map Prod.fst).length →
        ((addr2sym o).map Prod.fst).getD j 0 ≠ addr := by
      intro j hj1 hj2
      have hj2' : j < (addr2sym o).length := by simpa using hj2
      rw [getD_map_fst _ hj2']
      exact hlast j hj1 hj2'
    obtain ⟨k, hk⟩ := (binarySearch_isOk_iff hs).mpr ⟨i, hklen, hkey⟩
    have hki : k = i := binarySearch_ok_unique hs hk hklen hkey hlast'
    subst hki
    unfold query_symbol_by_addr
    dsimp only
    rw [hk]
    dsimp only
    rw [hit]
  · -- (2) miss, outside .got
    intro hmiss hnogot
    obtain ⟨e', hbs⟩ := hmap_err hmiss
    unfold query_symbol_by_addr
    dsimp only
    rw [hbs]
    dsimp only
    cases hsec : section_by_name o ".got" with
    | none => rfl
    | some sec =>
      dsimp only
      rw [if_pos (hnogot sec hsec)]
  · -- (3) miss, in .got, exact relocation hit (last tie)
    intro hmiss sec hsec hlo hhi i hi hit hlast
    obtain ⟨e', hbs⟩ := hmap_err hmiss
    have hklen : i < ((dyn_rela o).map Prod.fst).length := by simpa using hi
    have hkey : ((dyn_rela o).map Prod.fst).getD i 0 = addr := by
      rw [getD_map_fst _ hi]
      exact hit
    have hlast' : ∀ j, i < j → j < ((dyn_rela o).map Prod.fst).length →
        ((dyn_rela o).map Prod.fst).getD j 0 ≠ addr := by
      intro j hj1 hj2
      have hj2' : j < (dyn_rela o).length := by simpa using hj2
      rw [getD_map_fst _ hj2']
      exact hlast j hj1 hj2'
    obtain ⟨k, hk⟩ := (binarySearch_isOk_iff hrs).mpr ⟨i, hklen, hkey⟩
    have hki : k = i := binarySearch_ok_unique hrs hk hklen hkey hlast'
    subst hki
    unfold query_symbol_by_addr
    dsimp only
    rw [hbs]
    dsimp only
    rw [hsec]
    dsimp only
    rw [if_neg (not_not_intro ⟨hlo, hhi⟩)]
    rw [hk]
    dsimp only
    rw [if_neg (not_not_intro ⟨by rw [hit], by rw [hit]; omega⟩)]
  · -- (4) miss, in .got, next-higher relocation
    intro hmiss sec hsec hlo hhi hnoexact i hi hgt hfirst
    obtain ⟨e', hbs⟩ := hmap_err hmiss
    have herr : ∃ e2, binarySearch ((dyn_rela o).map Prod.fst) addr = .error e2 := by
      cases hbs2 : binarySearch ((dyn_rela o).map Prod.fst) addr with
      | ok k =>
        obtain ⟨hk, hkt, _⟩ := binarySearch_ok hrs hbs2
        have hk' : k < (dyn_rela o).length := by simpa using hk
        rw [getD_map_fst _ hk'] at hkt
        exact absurd hkt (hnoexact _ (getD_mem hk'))
      | error e2 => exact ⟨e2, rfl⟩
    obtain ⟨e2, hbs2⟩ := herr
    have he2 : e2 = i := by
      apply binarySearch_err_unique hrs hbs2 (by simpa using Nat.le_of_lt hi)
      · intro j hj
        have hj' : j < (dyn_rela o).length := by omega
        rw [getD_map_fst _ hj']
        exact hfirst j hj
      · intro j hj1 hj2
        have hj2' : j < (dyn_rela o).length := by simpa using hj2
        rw [getD_map_fst _ hj2']
        rcases Nat.eq_or_lt_of_le hj1 with hj | hj
        · rw [← hj]
          exact hgt
        · have hmono : ((dyn_rela o).map Prod.fst).getD i 0 ≤
              ((dyn_rela o).map Prod.fst).getD j 0 :=
            sorted_getD_le hrs (Nat.le_of_lt hj) (by simpa using hj2')
          rw [getD_map_fst _ hi, getD_map_fst _ hj2'] at hmono
          omega
    subst he2
    unfold query_symbol_by_addr
    dsimp only
    rw [hbs]
    dsimp only
    rw [hsec]
    dsimp only
    rw [if_neg (not_not_intro ⟨hlo, hhi⟩)]
    rw [hbs2]
    dsimp only
    rw [if_pos (by simpa using hi)]
    dsimp only
    constructor
    · intro hwin
      rw [if_neg (not_not_intro ⟨Nat.le_of_lt hgt, hwin⟩)]
    · intro hout
      rw [if_pos]
      intro hcon
      omega
  · -- (5) miss, in .got, every relocation below addr
    intro hmiss sec hsec hlo hhi hall
    obtain ⟨e', hbs⟩ := hmap_err hmiss
    have herr : ∃ e2, binarySearch ((dyn_rela o).map Prod.fst) addr = .error e2 := by
      cases hbs2 : binarySearch ((dyn_rela o).map Prod.fst) addr with
      | ok k =>
        obtain ⟨hk, hkt, _⟩ := binarySearch_ok hrs hbs2
        have hk' : k < (dyn_rela o).length := by simpa using hk
        rw [getD_map_fst _ hk'] at hkt
        have := hall _ (getD_mem hk')
        omega
      | error e2 => exact ⟨e2, rfl⟩
    obtain ⟨e2, hbs2⟩ := herr
    have he2 : e2 = (dyn_rela o).length := by
      apply binarySearch_err_unique hrs hbs2 (by simp)
      · intro j hj
        have hj' : j < (dyn_rela o).length := by simpa using hj
        rw [getD_map_fst _ hj']
        exact hall _ (getD_mem hj')
      · intro j hj1 hj2
        have : j < (dyn_rela o).length := by simpa using hj2
        omega
    subst he2
    unfold query_symbol_by_addr
    dsimp only
    rw [hbs]
    dsimp only
    rw [hsec]
    dsimp only
    rw [if_neg (not_not_intro ⟨hlo, hhi⟩)]
    rw [hbs2]
    dsimp only
    rw [if_neg (by omega)]

/-- witness for `query_symbol_follows_spec`: in `gotObj`, address
`0x2004` lies in `.got`, the next-higher relocation at `0x2008` is
within the 8-byte window and targets symbol `bar`, so the resolver
returns `("bar", 0x3000)`. -/
theorem query_symbol_follows_spec_witness :
    query_symbol_by_addr gotObj 0x2004 = some ("bar", 0x3000) := by
  have h := (query_symbol_follows_spec gotObj 0x2004).2.2.2.1
    (by decide) (ObjSection.mk ".got" 0x2000 0x10 8 []) (by decide)
    (by decide) (by decide) (by decide) 0 (by decide) (by decide)
    (by omega)
  exact (h.1 (by decide)).trans (by decide)

end Fi
